import Mathlib

/-!
Shallow embedding of the blobstore segmentation protocol
(`blobstore.go`): a blob is stored in a document collection as a list
of segments keyed by `(blobId, seq)`.  The Mongo collection is modelled
as a list of segment documents; `ReplaceOne` with upsert, `DeleteMany`
and sorted `Find` are modelled as the corresponding pure list
operations.  Byte streams are modelled as the full byte sequence the
reader would deliver (`List Nat`; byte values are never inspected by
the protocol).  The `uint64` fields `seq`, `start`, `n` are modelled as
`Nat`: their values are bounded by the stream length and the segment
count, so 64-bit wraparound is unreachable for any stream the Go code
can consume.
-/

namespace Blobstore

/-- Go struct `blobSegment`: the only persisted entity.  `blobId` tags
the logical blob, `seq` is the zero-based segment index, `data` the
payload, `start` the byte offset of the segment inside the blob and
`n` the payload length. -/
structure blobSegment where
  blobId : String
  seq : Nat
  data : List Nat
  start : Nat
  n : Nat
deriving DecidableEq, Repr

/-- The backing collection: one document per segment. -/
abbrev StoreState := List blobSegment

/-- Go `DefaultChunkSize = 2048 * 1024`. -/
def DefaultChunkSize : Nat := 2048 * 1024

/-- Effective chunk size used by `Store.Write`: the configured
`ChunkSize` if positive, else `DefaultChunkSize` (Go: `if chunkSize <= 0
{ chunkSize = DefaultChunkSize }`). -/
def effChunkSize (c : Int) : Nat :=
  if c ≤ 0 then DefaultChunkSize else c.toNat

/-- Two segment documents agree on the `(blobId, seq)` key used by the
unique index and by `ReplaceOne`'s filter. -/
def sameKey (a b : blobSegment) : Bool :=
  a.blobId == b.blobId && a.seq == b.seq

/-- The unique index on `(blobId, seq)` holds: no two documents share a
key. -/
def keysUnique (st : StoreState) : Prop :=
  st.Pairwise (fun a b => sameKey a b = false)

/-- Mongo `ReplaceOne(filter := {blobId, seq}, upsert := true)`: replace
the document with the segment's key if present, otherwise insert. -/
def upsert (s : blobSegment) (st : StoreState) : StoreState :=
  if st.any (fun t => sameKey s t) then
    st.map (fun t => if sameKey s t then s else t)
  else st ++ [s]

/-- Documents of the store whose `(blobId, seq)` key differs from the
key of `s`; `upsert s` leaves exactly these plus `s`. -/
def eraseKey (s : blobSegment) (st : StoreState) : StoreState :=
  st.filter (fun t => !(sameKey s t))

/-- Whether some segment of `l` carries the key of `t`. -/
def hasKey (l : List blobSegment) (t : blobSegment) : Bool :=
  l.any (fun s => sameKey s t)

/-- A sequence of `ReplaceOne` upserts, applied in emission order. -/
def upsertAll (segs : List blobSegment) (st : StoreState) : StoreState :=
  segs.foldl (fun acc s => upsert s acc) st

/-- Mongo `DeleteMany({blobId, seq >= m})`, used by `Write` for
truncation. -/
def deleteGE (blobID : String) (m : Nat) (st : StoreState) : StoreState :=
  st.filter (fun t => !(t.blobId == blobID && decide (m ≤ t.seq)))

/-- All documents of one blob, i.e. the result set of
`Find({blobId})` before sorting. -/
def blobSegs (blobID : String) (st : StoreState) : List blobSegment :=
  st.filter (fun t => t.blobId == blobID)

/-- Segment order `seq` ascending, as requested by `Read`'s
`Find(..., sort {seq: 1})`. -/
def seqLE (a b : blobSegment) : Prop := a.seq ≤ b.seq

/-- Segment order `seq` descending, as requested by `Size`'s
`Find(..., sort {seq: -1})`. -/
def seqGE (a b : blobSegment) : Prop := b.seq ≤ a.seq

/-- Strict `seq` order; the sorted result sets are strictly ordered
because keys are unique. -/
def seqLT (a b : blobSegment) : Prop := a.seq < b.seq

/-- Strict `seq` order, descending. -/
def seqGT (a b : blobSegment) : Prop := b.seq < a.seq

instance : DecidableRel seqLE := fun a b => Nat.decLe a.seq b.seq

instance : DecidableRel seqGE := fun a b => Nat.decLe b.seq a.seq

instance : IsTotal blobSegment seqLE := ⟨fun a b => Nat.le_total a.seq b.seq⟩

instance : IsTrans blobSegment seqLE := ⟨fun _ _ _ h h' => Nat.le_trans h h'⟩

instance : IsTotal blobSegment seqGE := ⟨fun a b => Nat.le_total b.seq a.seq⟩

instance : IsTrans blobSegment seqGE := ⟨fun _ _ _ h h' => Nat.le_trans h' h⟩

instance : IsAntisymm blobSegment seqLT :=
  ⟨fun _ _ h h' => absurd h' (Nat.lt_asymm h)⟩

instance : IsAntisymm blobSegment seqGT :=
  ⟨fun _ _ h h' => absurd h' (Nat.lt_asymm h)⟩

/-- The result set of `Find({blobId}, sort {seq: 1})`. -/
def sortBySeq (l : List blobSegment) : List blobSegment :=
  List.insertionSort seqLE l

/-- The result set of `Find({blobId}, sort {seq: -1})`. -/
def sortBySeqDesc (l : List blobSegment) : List blobSegment :=
  List.insertionSort seqGE l

/-- Go sentinel `ErrNotFound = errors.New("Not found")`: the one named
error condition the store itself produces. -/
inductive BlobError where
  | ErrNotFound
deriving DecidableEq, Repr

/-- Loop body of `Store.Write`.  Each iteration takes the next chunk of
at most `cs + 1` bytes from the remaining stream (Go reads with
`io.ReadAtLeast` into a `chunkSize`-byte buffer, shrinking it on the
final short read), upserts it as segment `seq` at offset `start`, and
continues with the rest; on an exhausted stream (`io.EOF`, nothing
read) it stops.  Returns the store and the final `segment.Seq`.  The
chunk size is passed as its predecessor `cs` so that positivity is
structural. -/
def writeLoop (blobID : String) (cs : Nat) (seq start : Nat)
    (B : List Nat) (st : StoreState) : StoreState × Nat :=
  match B with
  | [] => (st, seq)
  | b :: rest =>
    let chunk := (b :: rest).take (cs + 1)
    writeLoop blobID cs (seq + 1) (start + chunk.length)
      ((b :: rest).drop (cs + 1))
      (upsert ⟨blobID, seq, chunk, start, chunk.length⟩ st)
termination_by B.length
decreasing_by simp; omega

/-- Go `Store.Write`: segment the stream with the effective chunk size,
upserting each segment, then `DeleteMany` every document of the blob
whose `seq` is at least the final sequence counter (truncation). -/
def Write (blobID : String) (chunkSizeCfg : Int) (B : List Nat)
    (st : StoreState) : StoreState :=
  let cs := effChunkSize chunkSizeCfg
  let r := writeLoop blobID (cs - 1) 0 0 B st
  deleteGE blobID r.2 r.1

/-- The chunking `Write` performs, in isolation: split the stream into
maximal runs of `cs + 1` bytes; the last chunk may be shorter but never
empty. -/
def chunks (cs : Nat) (B : List Nat) : List (List Nat) :=
  match B with
  | [] => []
  | b :: rest => (b :: rest).take (cs + 1) :: chunks cs ((b :: rest).drop (cs + 1))
termination_by B.length
decreasing_by simp; omega

/-- Attach `blobId`, `seq` and `start` bookkeeping to a chunk list,
exactly as the loop of `Write` does. -/
def annotate (blobID : String) (seq start : Nat) :
    List (List Nat) → List blobSegment
  | [] => []
  | d :: rest =>
    ⟨blobID, seq, d, start, d.length⟩ :: annotate blobID (seq + 1) (start + d.length) rest

/-- The exact list of segments a call `Write blobID c B` upserts, in
emission order. -/
def emitted (blobID : String) (c : Int) (B : List Nat) : List blobSegment :=
  annotate blobID 0 0 (chunks (effChunkSize c - 1) B)

/-- Go `Store.Read`, with the returned stream already drained: query
the blob's segments sorted by `seq` ascending; if the cursor is empty
fail with `ErrNotFound` before returning any reader, otherwise the
stream delivers every segment's payload in cursor order. -/
def Read (blobID : String) (st : StoreState) : Except BlobError (List Nat) :=
  let segs := sortBySeq (blobSegs blobID st)
  if segs.isEmpty then .error .ErrNotFound
  else .ok ((segs.map blobSegment.data).flatten)

/-- Go `Store.Size`: query the blob's segments sorted by `seq`
descending; fail with `ErrNotFound` on an empty cursor, otherwise
return `start + n` of the first (highest-`seq`) document without
touching any payload. -/
def Size (blobID : String) (st : StoreState) : Except BlobError Nat :=
  match sortBySeqDesc (blobSegs blobID st) with
  | [] => .error .ErrNotFound
  | s :: _ => .ok (s.start + s.n)

/-- Go `Store.Remove`: with no ids, return nil immediately; otherwise
one `DeleteMany({blobId: {$in: blobIDs}})`.  The second component
counts the store round trips issued (0 or 1); deletion of nothing is
still success, so no error outcome exists beyond driver transport
failures, which are not modelled. -/
def Remove (blobIDs : List String) (st : StoreState) : StoreState × Nat :=
  if blobIDs.isEmpty then (st, 0)
  else (st.filter (fun t => !(blobIDs.contains t.blobId)), 1)

/-- State of the `sync.Once` guard in `Store` plus a counter of how
many times `Indexes().CreateOne` has actually been issued against the
backing store. -/
structure IndexState where
  done : Bool
  creates : Nat
deriving DecidableEq, Repr

/-- Go `Store.EnsureIndex`: `store.index.Do(...)` runs the index
creation only if the guard has not fired yet. -/
def EnsureIndex (s : IndexState) : IndexState :=
  if s.done then s else { done := true, creates := s.creates + 1 }

/-- A fresh `Store` handle: guard not fired, no index creation issued. -/
def indexState0 : IndexState := ⟨false, 0⟩

/-- Contiguity check on a `seq`-sorted segment list: starting at offset
`off`, each segment's `start` is the running offset, its `n` is its
payload length, and the offset advances by `n`. -/
def contigFrom (off : Nat) : List blobSegment → Bool
  | [] => true
  | s :: rest =>
    s.start == off && s.n == s.data.length && contigFrom (off + s.n) rest

/-- The spec's per-blob invariant: the blob's segments, ordered by
`seq` ascending, have contiguous offsets starting at 0. -/
def blobInvariant (blobID : String) (st : StoreState) : Prop :=
  contigFrom 0 (sortBySeq (blobSegs blobID st)) = true

/-- The two store-mutating operations of the package. -/
inductive Op where
  | write (blobID : String) (chunkSizeCfg : Int) (B : List Nat)
  | remove (blobIDs : List String)

/-- Apply a mutating operation to the collection. -/
def applyOp : Op → StoreState → StoreState
  | .write id c B, st => Write id c B st
  | .remove ids, st => (Remove ids st).1

end Blobstore
namespace Blobstore

theorem chunks_flatten (cs : Nat) (B : List Nat) : (chunks cs B).flatten = B := by
  induction B using chunks.induct cs with
  | case1 => simp [chunks]
  | case2 b rest ih =>
    rw [chunks]
    simp only [List.flatten_cons, ih]
    exact List.take_append_drop _ _

theorem chunks_nil_iff (cs : Nat) (B : List Nat) : chunks cs B = [] ↔ B = [] := by
  cases B with
  | nil => simp [chunks]
  | cons b rest => rw [chunks]; simp

theorem chunks_mem (cs : Nat) (B : List Nat) (d : List Nat)
    (hd : d ∈ chunks cs B) : d ≠ [] ∧ d.length ≤ cs + 1 := by
  induction B using chunks.induct cs with
  | case1 => simp [chunks] at hd
  | case2 b rest ih =>
    rw [chunks] at hd
    rcases List.mem_cons.mp hd with h | h
    · subst h
      refine ⟨by simp, ?_⟩
      simp
    · exact ih h

theorem chunks_lengths_exact (cs : Nat) (k : Nat) (B : List Nat)
    (hB : B.length = k * (cs + 1)) :
    (chunks cs B).map List.length = List.replicate k (cs + 1) := by
  induction k generalizing B with
  | zero =>
    simp at hB
    subst hB
    simp [chunks]
  | succ k ih =>
    cases B with
    | nil => simp [Nat.succ_mul] at hB; omega
    | cons b rest =>
      have hlen : cs + 1 ≤ (b :: rest).length := by
        rw [hB]; exact Nat.le_mul_of_pos_left _ (Nat.succ_pos k)
      rw [chunks]
      simp only [List.map_cons]
      have htake : (List.take (cs + 1) (b :: rest)).length = cs + 1 := by
        rw [List.length_take]; omega
      have hdrop : (List.drop (cs + 1) (b :: rest)).length = k * (cs + 1) := by
        rw [List.length_drop, hB, Nat.succ_mul]; omega
      rw [htake, ih _ hdrop, List.replicate_succ]

theorem chunks_lengths_rem (cs : Nat) (k r : Nat) (B : List Nat)
    (hr0 : 0 < r) (hr1 : r < cs + 1) (hB : B.length = k * (cs + 1) + r) :
    (chunks cs B).map List.length = List.replicate k (cs + 1) ++ [r] := by
  induction k generalizing B with
  | zero =>
    cases B with
    | nil => simp at hB; omega
    | cons b rest =>
      rw [chunks]
      simp only [Nat.zero_mul, Nat.zero_add] at hB
      have htake : List.take (cs + 1) (b :: rest) = b :: rest :=
        List.take_of_length_le (by omega)
      have hdrop : List.drop (cs + 1) (b :: rest) = [] :=
        List.drop_eq_nil_of_le (by omega)
      rw [htake, hdrop]
      simp [chunks, hB]
  | succ k ih =>
    cases B with
    | nil => simp at hB; omega
    | cons b rest =>
      have hlen : cs + 1 ≤ (b :: rest).length := by
        rw [hB, Nat.succ_mul]; omega
      rw [chunks]
      simp only [List.map_cons]
      have htake : (List.take (cs + 1) (b :: rest)).length = cs + 1 := by
        rw [List.length_take]; omega
      have hdrop : (List.drop (cs + 1) (b :: rest)).length = k * (cs + 1) + r := by
        rw [List.length_drop, hB, Nat.succ_mul]; omega
      rw [htake, ih _ hdrop, List.replicate_succ]
      simp

theorem annotate_length (blobID : String) (seq start : Nat) (L : List (List Nat)) :
    (annotate blobID seq start L).length = L.length := by
  induction L generalizing seq start with
  | nil => rfl
  | cons d rest ih => simp [annotate, ih]

theorem annotate_map_data (blobID : String) (seq start : Nat) (L : List (List Nat)) :
    (annotate blobID seq start L).map blobSegment.data = L := by
  induction L generalizing seq start with
  | nil => rfl
  | cons d rest ih => simp [annotate, ih]

theorem annotate_mem (blobID : String) (seq start : Nat) (L : List (List Nat))
    (s : blobSegment) (hs : s ∈ annotate blobID seq start L) :
    s.blobId = blobID ∧ seq ≤ s.seq ∧ s.seq < seq + L.length ∧
      s.n = s.data.length ∧ s.data ∈ L := by
  induction L generalizing seq start with
  | nil => simp [annotate] at hs
  | cons d rest ih =>
    rw [annotate] at hs
    rcases List.mem_cons.mp hs with h | h
    · subst h
      refine ⟨rfl, Nat.le_refl _, by simp, rfl, by simp⟩
    · obtain ⟨h1, h2, h3, h4, h5⟩ := ih (seq + 1) (start + d.length) h
      exact ⟨h1, by omega, by simp; omega, h4, by simp [h5]⟩

end Blobstore

namespace Blobstore

theorem sameKey_iff (a b : blobSegment) :
    sameKey a b = true ↔ a.blobId = b.blobId ∧ a.seq = b.seq := by
  simp [sameKey]

theorem sameKey_comm (a b : blobSegment) : sameKey a b = sameKey b a := by
  rw [Bool.eq_iff_iff, sameKey_iff, sameKey_iff]
  constructor
  · exact fun h => ⟨h.1.symm, h.2.symm⟩
  · exact fun h => ⟨h.1.symm, h.2.symm⟩

theorem sameKey_trans_ne {s t u : blobSegment} (h1 : sameKey s t = true)
    (h2 : sameKey t u = false) : sameKey s u = false := by
  rw [sameKey_iff] at h1
  rcases hsu : sameKey s u with _ | _
  · rfl
  · rw [sameKey_iff] at hsu
    have ht : sameKey t u = true := by
      refine (sameKey_iff t u).mpr ⟨?_, ?_⟩
      · rw [← h1.1]; exact hsu.1
      · rw [← h1.2]; exact hsu.2
    rw [ht] at h2
    cases h2

theorem upsert_cons_of_ne {s t : blobSegment} (rest : StoreState)
    (h : sameKey s t = false) : upsert s (t :: rest) = t :: upsert s rest := by
  simp only [upsert, List.any_cons, h, Bool.false_or]
  cases hr : rest.any fun u => sameKey s u
  · simp [h]
  · simp [h]

theorem upsert_perm (s : blobSegment) (st : StoreState) (hu : keysUnique st) :
    (upsert s st).Perm (s :: eraseKey s st) := by
  induction st with
  | nil => simp [upsert, eraseKey]
  | cons t rest ih =>
    rw [keysUnique, List.pairwise_cons] at hu
    obtain ⟨h1, h2⟩ := hu
    rcases hst : sameKey s t with _ | _
    · rw [upsert_cons_of_ne rest hst]
      have he : eraseKey s (t :: rest) = t :: eraseKey s rest := by
        simp [eraseKey, hst]
      rw [he]
      exact ((ih h2).cons t).trans (List.Perm.swap s t _)
    · have hrest : ∀ u ∈ rest, sameKey s u = false := fun u hu' =>
        sameKey_trans_ne hst (h1 u hu')
      have hmap : rest.map (fun u => if sameKey s u then s else u) = rest := by
        have hg : rest.map (fun u => if sameKey s u then s else u) =
            rest.map (fun u => u) :=
          List.map_congr_left (fun u hu' => by simp [hrest u hu'])
        rw [hg]
        exact List.map_id' rest
      have he : eraseKey s (t :: rest) = rest := by
        unfold eraseKey
        rw [List.filter_cons_of_neg (by simp [hst])]
        exact List.filter_eq_self.mpr fun u hu' => by simp [hrest u hu']
      have hany : (t :: rest).any (fun u => sameKey s u) = true := by
        simp [hst]
      rw [he]
      simp only [upsert, hany, if_true, List.map_cons, hst, ite_true, hmap]
      exact List.Perm.refl _

end Blobstore

namespace Blobstore

theorem eraseKey_mem_false (s : blobSegment) (st : StoreState) :
    ∀ u ∈ eraseKey s st, sameKey s u = false := by
  intro u hu
  have h := (List.mem_filter.mp hu).2
  simpa using h

theorem upsert_keysUnique (s : blobSegment) (st : StoreState)
    (hu : keysUnique st) : keysUnique (upsert s st) := by
  unfold keysUnique
  rw [List.Perm.pairwise_iff
    (fun {x y} hxy => by rw [sameKey_comm]; exact hxy) (upsert_perm s st hu)]
  rw [List.pairwise_cons]
  exact ⟨fun u hu' => eraseKey_mem_false s st u hu',
    List.Pairwise.sublist (List.filter_sublist st) hu⟩

theorem upsertAll_keysUnique (segs : List blobSegment) (st : StoreState)
    (hu : keysUnique st) : keysUnique (upsertAll segs st) := by
  induction segs generalizing st with
  | nil => exact hu
  | cons s rest ih => exact ih (upsert s st) (upsert_keysUnique s st hu)

theorem upsertAll_perm (segs : List blobSegment) :
    ∀ st : StoreState, keysUnique segs → keysUnique st →
    (upsertAll segs st).Perm (segs ++ st.filter (fun t => !(hasKey segs t))) := by
  induction segs with
  | nil =>
    intro st _ _
    have hf : st.filter (fun t => !(hasKey [] t)) = st :=
      List.filter_eq_self.mpr fun a _ => by simp [hasKey]
    rw [List.nil_append, hf]
    exact List.Perm.refl st
  | cons s rest ih =>
    intro st hsegs hu
    rw [keysUnique, List.pairwise_cons] at hsegs
    obtain ⟨hs1, hs2⟩ := hsegs
    have h1 := ih (upsert s st) hs2 (upsert_keysUnique s st hu)
    have h2 := (upsert_perm s st hu).filter (fun t => !(hasKey rest t))
    have hPs : hasKey rest s = false := by
      unfold hasKey
      rw [List.any_eq_false]
      intro u hu'
      rw [sameKey_comm]
      simp [hs1 u hu']
    have hfc : (s :: eraseKey s st).filter (fun t => !(hasKey rest t)) =
        s :: (eraseKey s st).filter (fun t => !(hasKey rest t)) :=
      List.filter_cons_of_pos (by simp [hPs])
    have hff : (eraseKey s st).filter (fun t => !(hasKey rest t)) =
        st.filter (fun t => !(hasKey (s :: rest) t)) := by
      unfold eraseKey
      rw [List.filter_filter]
      refine List.filter_congr fun t ht => ?_
      simp [hasKey, Bool.not_or, Bool.and_comm]
    refine (h1.trans (List.Perm.append_left rest h2)).trans ?_
    rw [hfc, hff]
    exact List.perm_middle

theorem writeLoop_eq (blobID : String) (cs : Nat) (seq start : Nat)
    (B : List Nat) (st : StoreState) :
    writeLoop blobID cs seq start B st =
      (upsertAll (annotate blobID seq start (chunks cs B)) st,
       seq + (chunks cs B).length) := by
  induction B using chunks.induct cs generalizing seq start st with
  | case1 => simp [writeLoop, chunks, annotate, upsertAll]
  | case2 b rest ih =>
    rw [writeLoop, chunks]
    simp only [annotate, upsertAll, List.foldl_cons, List.length_cons]
    rw [ih]
    simp only [Prod.mk.injEq, upsertAll]
    refine ⟨by trivial, by omega⟩

theorem Write_eq (blobID : String) (c : Int) (B : List Nat) (st : StoreState) :
    Write blobID c B st =
      deleteGE blobID (emitted blobID c B).length
        (upsertAll (emitted blobID c B) st) := by
  simp only [Write, writeLoop_eq, emitted, annotate_length, Nat.zero_add]

theorem annotate_pairwise_seqLT (blobID : String) (seq start : Nat)
    (L : List (List Nat)) :
    (annotate blobID seq start L).Pairwise seqLT := by
  induction L generalizing seq start with
  | nil => exact List.Pairwise.nil
  | cons d rest ih =>
    rw [annotate]
    refine List.Pairwise.cons ?_ (ih (seq + 1) (start + d.length))
    intro s hs
    have h := (annotate_mem blobID (seq + 1) (start + d.length) rest s hs).2.1
    exact Nat.lt_of_lt_of_le (Nat.lt_succ_self seq) h

theorem annotate_keysUnique (blobID : String) (seq start : Nat)
    (L : List (List Nat)) : keysUnique (annotate blobID seq start L) := by
  unfold keysUnique
  refine (annotate_pairwise_seqLT blobID seq start L).imp ?_
  intro a b hab
  rcases hk : sameKey a b with _ | _
  · rfl
  · have hlt : a.seq < b.seq := hab
    have heq := ((sameKey_iff a b).mp hk).2
    exact absurd hlt (by omega)

theorem annotate_hasKey (blobID : String) (seq start : Nat)
    (L : List (List Nat)) (t : blobSegment) (hb : t.blobId = blobID)
    (h1 : seq ≤ t.seq) (h2 : t.seq < seq + L.length) :
    hasKey (annotate blobID seq start L) t = true := by
  induction L generalizing seq start with
  | nil =>
    simp only [List.length_nil, Nat.add_zero] at h2
    exact absurd (Nat.lt_of_le_of_lt h1 h2) (Nat.lt_irrefl seq)
  | cons d rest ih =>
    unfold hasKey
    rw [annotate, List.any_cons]
    by_cases he : t.seq = seq
    · have hk : sameKey ⟨blobID, seq, d, start, d.length⟩ t = true :=
        (sameKey_iff _ _).mpr ⟨hb.symm, he.symm⟩
      simp [hk]
    · have h1' : seq + 1 ≤ t.seq := by omega
      have h2' : t.seq < (seq + 1) + rest.length := by
        simp only [List.length_cons] at h2
        omega
      have hr := ih (seq + 1) (start + d.length) h1' h2'
      unfold hasKey at hr
      simp [hr]

end Blobstore

namespace Blobstore

theorem sorted_strict (l : List blobSegment) (hs : List.Sorted seqLE l)
    (hn : (l.map blobSegment.seq).Nodup) : l.Pairwise seqLT := by
  have hsp : List.Pairwise seqLE l := hs
  have hne : l.Pairwise (fun a b => a.seq ≠ b.seq) := List.pairwise_map.mp hn
  exact (hsp.and hne).imp fun {a b} hab => Nat.lt_of_le_of_ne hab.1 hab.2

theorem sorted_strict_desc (l : List blobSegment) (hs : List.Sorted seqGE l)
    (hn : (l.map blobSegment.seq).Nodup) : l.Pairwise seqGT := by
  have hsp : List.Pairwise seqGE l := hs
  have hne : l.Pairwise (fun a b => a.seq ≠ b.seq) := List.pairwise_map.mp hn
  exact (hsp.and hne).imp fun {a b} hab =>
    Nat.lt_of_le_of_ne hab.1 fun e => hab.2 e.symm

theorem sortBySeq_eq (l m : List blobSegment) (h : l.Perm m)
    (hm : m.Pairwise seqLT) : sortBySeq l = m := by
  have hp : (sortBySeq l).Perm m := (List.perm_insertionSort seqLE l).trans h
  have hs1 : List.Sorted seqLE (sortBySeq l) := List.sorted_insertionSort seqLE l
  have hnodupm : (m.map blobSegment.seq).Nodup :=
    List.pairwise_map.mpr (hm.imp fun {a b} hab => Nat.ne_of_lt hab)
  have hnodupl : ((sortBySeq l).map blobSegment.seq).Nodup :=
    (List.Perm.nodup_iff (hp.map blobSegment.seq)).mpr hnodupm
  exact List.eq_of_perm_of_sorted hp (sorted_strict _ hs1 hnodupl) hm

theorem sortBySeqDesc_eq (l m : List blobSegment) (h : l.Perm m)
    (hm : m.Pairwise seqLT) : sortBySeqDesc l = m.reverse := by
  have hp : (sortBySeqDesc l).Perm m.reverse :=
    ((List.perm_insertionSort seqGE l).trans h).trans m.reverse_perm.symm
  have hmrev : m.reverse.Pairwise seqGT :=
    List.pairwise_reverse.mpr (hm.imp fun {a b} hab => hab)
  have hs1 : List.Sorted seqGE (sortBySeqDesc l) :=
    List.sorted_insertionSort seqGE l
  have hnodupm : (m.reverse.map blobSegment.seq).Nodup :=
    List.pairwise_map.mpr (hmrev.imp fun {a b} hab => fun e => Nat.ne_of_lt hab e.symm)
  have hnodupl : ((sortBySeqDesc l).map blobSegment.seq).Nodup :=
    (List.Perm.nodup_iff (hp.map blobSegment.seq)).mpr hnodupm
  exact List.eq_of_perm_of_sorted hp (sorted_strict_desc _ hs1 hnodupl) hmrev

theorem sortBySeq_congr (l l' : List blobSegment) (h : l.Perm l')
    (hn : (l'.map blobSegment.seq).Nodup) : sortBySeq l = sortBySeq l' := by
  have hp' : (sortBySeq l').Perm l' := List.perm_insertionSort seqLE l'
  have hs' : List.Sorted seqLE (sortBySeq l') := List.sorted_insertionSort seqLE l'
  have hn' : ((sortBySeq l').map blobSegment.seq).Nodup :=
    (List.Perm.nodup_iff (hp'.map blobSegment.seq)).mpr hn
  exact sortBySeq_eq l (sortBySeq l') (h.trans hp'.symm) (sorted_strict _ hs' hn')

theorem blobSegs_seq_nodup (blobID : String) (st : StoreState)
    (hu : keysUnique st) : ((blobSegs blobID st).map blobSegment.seq).Nodup := by
  have hsub : (blobSegs blobID st).Sublist st := List.filter_sublist st
  have hpw : (blobSegs blobID st).Pairwise (fun a b => sameKey a b = false) :=
    List.Pairwise.sublist hsub hu
  refine List.pairwise_map.mpr (hpw.imp_of_mem ?_)
  intro a b ha hb hab he
  have ha' : a.blobId = blobID := by simpa using (List.mem_filter.mp ha).2
  have hb' : b.blobId = blobID := by simpa using (List.mem_filter.mp hb).2
  have hk : sameKey a b = true := (sameKey_iff a b).mpr ⟨ha'.trans hb'.symm, he⟩
  rw [hk] at hab
  cases hab

theorem emitted_keysUnique (blobID : String) (c : Int) (B : List Nat) :
    keysUnique (emitted blobID c B) :=
  annotate_keysUnique blobID 0 0 _

theorem emitted_mem (blobID : String) (c : Int) (B : List Nat) (s : blobSegment)
    (hs : s ∈ emitted blobID c B) :
    s.blobId = blobID ∧ s.seq < (emitted blobID c B).length ∧
      s.n = s.data.length ∧ s.data ∈ chunks (effChunkSize c - 1) B := by
  obtain ⟨h1, h2, h3, h4, h5⟩ := annotate_mem blobID 0 0 _ s hs
  refine ⟨h1, ?_, h4, h5⟩
  have hlen := annotate_length blobID 0 0 (chunks (effChunkSize c - 1) B)
  unfold emitted
  omega

theorem emitted_ne_nil (blobID : String) (c : Int) (B : List Nat) (hB : B ≠ []) :
    emitted blobID c B ≠ [] := by
  unfold emitted
  cases hc : chunks (effChunkSize c - 1) B with
  | nil => exact absurd ((chunks_nil_iff _ _).mp hc) hB
  | cons d rest => simp [annotate]

theorem blobSegs_Write (blobID : String) (c : Int) (B : List Nat)
    (st : StoreState) (hu : keysUnique st) :
    (blobSegs blobID (Write blobID c B st)).Perm (emitted blobID c B) := by
  rw [Write_eq]
  have hperm := upsertAll_perm (emitted blobID c B) st
      (emitted_keysUnique blobID c B) hu
  have h2 : (blobSegs blobID (deleteGE blobID (emitted blobID c B).length
      (upsertAll (emitted blobID c B) st))).Perm
      (blobSegs blobID (deleteGE blobID (emitted blobID c B).length
      (emitted blobID c B ++
        st.filter (fun t => !(hasKey (emitted blobID c B) t))))) := by
    unfold blobSegs deleteGE
    exact (hperm.filter _).filter _
  refine h2.trans ?_
  have e1 : deleteGE blobID (emitted blobID c B).length
      (emitted blobID c B ++
        st.filter (fun t => !(hasKey (emitted blobID c B) t))) =
      emitted blobID c B ++ deleteGE blobID (emitted blobID c B).length
        (st.filter (fun t => !(hasKey (emitted blobID c B) t))) := by
    unfold deleteGE
    rw [List.filter_append]
    congr 1
    refine List.filter_eq_self.mpr fun s hs => ?_
    have hlt := (emitted_mem blobID c B s hs).2.1
    simp [Nat.not_le.mpr hlt]
  rw [e1]
  unfold blobSegs
  rw [List.filter_append]
  have e2 : (emitted blobID c B).filter (fun t => t.blobId == blobID) =
      emitted blobID c B :=
    List.filter_eq_self.mpr fun s hs => by simp [(emitted_mem blobID c B s hs).1]
  have e3 : (deleteGE blobID (emitted blobID c B).length
      (st.filter (fun t => !(hasKey (emitted blobID c B) t)))).filter
        (fun t => t.blobId == blobID) = [] := by
    rw [List.filter_eq_nil_iff]
    intro t ht hbeq
    unfold deleteGE at ht
    have ht1 := List.mem_filter.mp ht
    have ht2 := List.mem_filter.mp ht1.1
    have hb : t.blobId = blobID := by simpa using hbeq
    have hseq : t.seq < (emitted blobID c B).length := by
      have h := ht1.2
      simp [hb] at h
      omega
    have hLlen : t.seq < 0 + (chunks (effChunkSize c - 1) B).length := by
      have hlen := annotate_length blobID 0 0 (chunks (effChunkSize c - 1) B)
      unfold emitted at hseq
      omega
    have hk := annotate_hasKey blobID 0 0 (chunks (effChunkSize c - 1) B) t hb
      (Nat.zero_le _) hLlen
    have hnk : hasKey (emitted blobID c B) t = false := by
      have h := ht2.2
      simpa using h
    unfold emitted at hnk
    rw [hk] at hnk
    cases hnk
  rw [e2, e3, List.append_nil]

end Blobstore

namespace Blobstore

theorem sorted_blobSegs_Write (blobID : String) (c : Int) (B : List Nat)
    (st : StoreState) (hu : keysUnique st) :
    sortBySeq (blobSegs blobID (Write blobID c B st)) = emitted blobID c B := by
  refine sortBySeq_eq _ _ (blobSegs_Write blobID c B st hu) ?_
  unfold emitted
  exact annotate_pairwise_seqLT blobID 0 0 _

theorem Read_Write (blobID : String) (c : Int) (B : List Nat) (st : StoreState)
    (hB : B ≠ []) (hu : keysUnique st) :
    Read blobID (Write blobID c B st) = Except.ok B := by
  unfold Read
  rw [sorted_blobSegs_Write blobID c B st hu]
  have hne := emitted_ne_nil blobID c B hB
  rw [if_neg (by simp [List.isEmpty_iff, hne])]
  unfold emitted
  rw [annotate_map_data, chunks_flatten]

theorem annotate_getLast (blobID : String) :
    ∀ (L : List (List Nat)) (seq start : Nat), L ≠ [] →
    (annotate blobID seq start L).getLast?.map (fun s => s.start + s.n) =
      some (start + L.flatten.length) := by
  intro L
  induction L with
  | nil => intro seq start h; exact absurd rfl h
  | cons d rest ih =>
    intro seq start _
    cases rest with
    | nil => simp [annotate]
    | cons e rest' =>
      have hstep : annotate blobID seq start (d :: e :: rest') =
          ⟨blobID, seq, d, start, d.length⟩ ::
            annotate blobID (seq + 1) (start + d.length) (e :: rest') := rfl
      have hstep2 : annotate blobID (seq + 1) (start + d.length) (e :: rest') =
          ⟨blobID, seq + 1, e, start + d.length, e.length⟩ ::
            annotate blobID (seq + 2) (start + d.length + e.length) rest' := rfl
      rw [hstep, hstep2, List.getLast?_cons_cons, ← hstep2]
      rw [ih (seq + 1) (start + d.length) (by simp)]
      congr 1
      simp only [List.flatten_cons, List.length_append]
      omega

theorem Size_Write (blobID : String) (c : Int) (B : List Nat) (st : StoreState)
    (hB : B ≠ []) (hu : keysUnique st) :
    Size blobID (Write blobID c B st) = Except.ok B.length := by
  unfold Size
  have hsort : sortBySeqDesc (blobSegs blobID (Write blobID c B st)) =
      (emitted blobID c B).reverse := by
    refine sortBySeqDesc_eq _ _ (blobSegs_Write blobID c B st hu) ?_
    unfold emitted
    exact annotate_pairwise_seqLT blobID 0 0 _
  rw [hsort]
  have hlast := annotate_getLast blobID (chunks (effChunkSize c - 1) B) 0 0
      (fun h => hB ((chunks_nil_iff _ _).mp h))
  rw [chunks_flatten] at hlast
  rcases hrev : (emitted blobID c B).reverse with _ | ⟨s, tail⟩
  · exact absurd (List.reverse_eq_nil_iff.mp hrev) (emitted_ne_nil blobID c B hB)
  · have hhead : (emitted blobID c B).getLast? = some s := by
      rw [← List.head?_reverse, hrev]
      rfl
    unfold emitted at hhead
    rw [hhead] at hlast
    simp only [Option.map_some', Option.some.injEq, Nat.zero_add] at hlast
    simp [hlast]

end Blobstore

namespace Blobstore

theorem Write_keysUnique (blobID : String) (c : Int) (B : List Nat)
    (st : StoreState) (hu : keysUnique st) : keysUnique (Write blobID c B st) := by
  rw [Write_eq]
  exact List.Pairwise.sublist (List.filter_sublist _)
    (upsertAll_keysUnique (emitted blobID c B) st hu)

theorem blobSegs_Write_other (blobID other : String) (c : Int) (B : List Nat)
    (st : StoreState) (hu : keysUnique st) (hne : other ≠ blobID) :
    (blobSegs other (Write blobID c B st)).Perm (blobSegs other st) := by
  rw [Write_eq]
  have hperm := upsertAll_perm (emitted blobID c B) st
      (emitted_keysUnique blobID c B) hu
  have h2 : (blobSegs other (deleteGE blobID (emitted blobID c B).length
      (upsertAll (emitted blobID c B) st))).Perm
      (blobSegs other (deleteGE blobID (emitted blobID c B).length
      (emitted blobID c B ++
        st.filter (fun t => !(hasKey (emitted blobID c B) t))))) := by
    unfold blobSegs deleteGE
    exact (hperm.filter _).filter _
  refine h2.trans ?_
  unfold blobSegs deleteGE
  rw [List.filter_append, List.filter_append]
  have eE : ((emitted blobID c B).filter
      (fun t => !(t.blobId == blobID && decide ((emitted blobID c B).length ≤ t.seq)))).filter
      (fun t => t.blobId == other) = [] := by
    rw [List.filter_eq_nil_iff]
    intro t ht hbeq
    have htE := List.mem_filter.mp ht
    have hb := (emitted_mem blobID c B t htE.1).1
    have : other = blobID := by
      have hb' : t.blobId = other := by simpa using hbeq
      rw [← hb', hb]
    exact hne this
  rw [eE, List.nil_append]
  have eF : ((st.filter (fun t => !(hasKey (emitted blobID c B) t))).filter
      (fun t => !(t.blobId == blobID && decide ((emitted blobID c B).length ≤ t.seq)))).filter
      (fun t => t.blobId == other) =
      st.filter (fun t => t.blobId == other) := by
    rw [List.filter_filter, List.filter_filter]
    refine List.filter_congr fun t _ => ?_
    rcases hbo : (t.blobId == other) with _ | _
    · simp
    · have hb : t.blobId = other := by simpa using hbo
      have hdel : (t.blobId == blobID) = false := by
        rw [hb]
        exact beq_eq_false_iff_ne.mpr hne
      have hnk : hasKey (emitted blobID c B) t = false := by
        unfold hasKey
        rw [List.any_eq_false]
        intro s hs
        rw [sameKey_iff]
        rintro ⟨hx, -⟩
        have hsb := (emitted_mem blobID c B s hs).1
        exact hne (by rw [← hb, ← hx]; exact hsb)
      simp [hdel, hnk]
  exact eF ▸ List.Perm.refl _

theorem blobSegs_Remove_of_mem (ids : List String) (blobID : String)
    (st : StoreState) (h : ids.contains blobID = true) :
    blobSegs blobID (Remove ids st).1 = [] := by
  rcases ids with _ | ⟨i, rest⟩
  · simp at h
  · unfold Remove blobSegs
    simp only [List.isEmpty_cons, Bool.false_eq_true, if_false]
    rw [List.filter_filter, List.filter_eq_nil_iff]
    intro t _ hp
    rcases hb : (t.blobId == blobID) with _ | _
    · rw [hb] at hp
      simp at hp
    · have hb' : t.blobId = blobID := by simpa using hb
      rw [hb, hb'] at hp
      rw [h] at hp
      simp at hp

theorem blobSegs_Remove_of_not_mem (ids : List String) (blobID : String)
    (st : StoreState) (h : ids.contains blobID = false) :
    blobSegs blobID (Remove ids st).1 = blobSegs blobID st := by
  rcases ids with _ | ⟨i, rest⟩
  · rfl
  · unfold Remove blobSegs
    simp only [List.isEmpty_cons, Bool.false_eq_true, if_false]
    rw [List.filter_filter]
    refine List.filter_congr fun t _ => ?_
    rcases hb : (t.blobId == blobID) with _ | _
    · simp
    · have hb' : t.blobId = blobID := by simpa using hb
      rw [hb', h]
      simp

theorem Remove_keysUnique (ids : List String) (st : StoreState)
    (hu : keysUnique st) : keysUnique (Remove ids st).1 := by
  rcases ids with _ | ⟨i, rest⟩
  · exact hu
  · unfold Remove
    simp only [List.isEmpty_cons, Bool.false_eq_true, if_false]
    exact List.Pairwise.sublist (List.filter_sublist _) hu

theorem sortBySeq_eq_nil_iff (l : List blobSegment) : sortBySeq l = [] ↔ l = [] := by
  constructor
  · intro h
    have hp : (sortBySeq l).Perm l := List.perm_insertionSort seqLE l
    rw [h] at hp
    exact (hp.symm).eq_nil
  · intro h
    rw [h]
    rfl

theorem sortBySeqDesc_eq_nil_iff (l : List blobSegment) :
    sortBySeqDesc l = [] ↔ l = [] := by
  constructor
  · intro h
    have hp : (sortBySeqDesc l).Perm l := List.perm_insertionSort seqGE l
    rw [h] at hp
    exact (hp.symm).eq_nil
  · intro h
    rw [h]
    rfl

theorem Read_notFound_iff (blobID : String) (st : StoreState) :
    Read blobID st = Except.error BlobError.ErrNotFound ↔
      blobSegs blobID st = [] := by
  by_cases h : blobSegs blobID st = []
  · simp [Read, sortBySeq, h]
  · have hne : sortBySeq (blobSegs blobID st) ≠ [] :=
      fun hh => h ((sortBySeq_eq_nil_iff _).mp hh)
    simp only [Read]
    rw [if_neg (by simp [List.isEmpty_iff, hne])]
    constructor
    · intro hok
      exact Except.noConfusion hok
    · intro hh
      exact absurd hh h

theorem Size_notFound_iff (blobID : String) (st : StoreState) :
    Size blobID st = Except.error BlobError.ErrNotFound ↔
      blobSegs blobID st = [] := by
  by_cases h : blobSegs blobID st = []
  · simp [Size, sortBySeqDesc, h]
  · have hne : sortBySeqDesc (blobSegs blobID st) ≠ [] :=
      fun hh => h ((sortBySeqDesc_eq_nil_iff _).mp hh)
    unfold Size
    rcases hs : sortBySeqDesc (blobSegs blobID st) with _ | ⟨s, tail⟩
    · exact absurd hs hne
    · constructor
      · intro hok
        exact Except.noConfusion hok
      · intro hh
        exact absurd hh h

end Blobstore

namespace Blobstore

theorem effChunkSize_pos (c : Int) : 1 ≤ effChunkSize c := by
  rcases le_or_lt c 0 with h | h
  · simp [effChunkSize, h, DefaultChunkSize]
  · have hnot : ¬c ≤ 0 := not_le.mpr h
    simp only [effChunkSize, hnot, if_false]
    omega

theorem emitted_nil (blobID : String) (c : Int) : emitted blobID c [] = [] := by
  unfold emitted
  rw [chunks]
  rfl

theorem Write_nil (blobID : String) (c : Int) (st : StoreState) :
    Write blobID c [] st = deleteGE blobID 0 st := by
  rw [Write_eq, emitted_nil]
  rfl

theorem blobSegs_deleteGE_zero (blobID : String) (st : StoreState) :
    blobSegs blobID (deleteGE blobID 0 st) = [] := by
  unfold blobSegs deleteGE
  rw [List.filter_filter, List.filter_eq_nil_iff]
  intro t _ hp
  rcases hb : (t.blobId == blobID) with _ | _
  · rw [hb] at hp
    simp at hp
  · rw [hb] at hp
    simp at hp

theorem blobSegs_Write_nil (blobID : String) (c : Int) (st : StoreState) :
    blobSegs blobID (Write blobID c [] st) = [] := by
  rw [Write_nil]
  exact blobSegs_deleteGE_zero blobID st

theorem annotate_contigFrom (blobID : String) (seq start : Nat)
    (L : List (List Nat)) :
    contigFrom start (annotate blobID seq start L) = true := by
  induction L generalizing seq start with
  | nil => rfl
  | cons d rest ih => simp [annotate, contigFrom, ih]

theorem blobInvariant_Write_self (blobID : String) (c : Int) (B : List Nat)
    (st : StoreState) (hu : keysUnique st) :
    blobInvariant blobID (Write blobID c B st) := by
  unfold blobInvariant
  rw [sorted_blobSegs_Write blobID c B st hu]
  unfold emitted
  exact annotate_contigFrom blobID 0 0 _

theorem blobInvariant_Write_other (blobID other : String) (c : Int)
    (B : List Nat) (st : StoreState) (hu : keysUnique st) (hne : other ≠ blobID)
    (hinv : blobInvariant other st) :
    blobInvariant other (Write blobID c B st) := by
  unfold blobInvariant at hinv ⊢
  rw [sortBySeq_congr _ _ (blobSegs_Write_other blobID other c B st hu hne)
    (blobSegs_seq_nodup other st hu)]
  exact hinv

theorem blobInvariant_Remove (ids : List String) (blobID : String)
    (st : StoreState) (hinv : blobInvariant blobID st) :
    blobInvariant blobID (Remove ids st).1 := by
  rcases hmem : ids.contains blobID with _ | _
  · unfold blobInvariant
    rw [blobSegs_Remove_of_not_mem ids blobID st hmem]
    exact hinv
  · unfold blobInvariant
    rw [blobSegs_Remove_of_mem ids blobID st hmem]
    rfl

theorem emitted_data_lengths (blobID : String) (c : Int) (B : List Nat) :
    (emitted blobID c B).map (fun s => s.data.length) =
      (chunks (effChunkSize c - 1) B).map List.length := by
  unfold emitted
  conv_rhs =>
    rw [← annotate_map_data blobID 0 0 (chunks (effChunkSize c - 1) B)]
  rw [List.map_map]
  exact List.map_congr_left fun s _ => rfl

theorem EnsureIndex_step0 : EnsureIndex indexState0 = ⟨true, 1⟩ := rfl

theorem EnsureIndex_fixed (m : Nat) :
    EnsureIndex^[m] (⟨true, 1⟩ : IndexState) = ⟨true, 1⟩ := by
  induction m with
  | zero => rfl
  | succ j ih =>
    rw [Function.iterate_succ_apply, show EnsureIndex (⟨true, 1⟩ : IndexState) =
      ⟨true, 1⟩ from rfl, ih]

end Blobstore

namespace Blobstore

/-- C1 (amended to nonempty streams): for every nonempty byte sequence
B, positive chunk size, and store satisfying the unique-index
invariant, `Write` followed by a fully drained `Read` yields exactly
B. -/
theorem write_read_roundtrip (blobID : String) (c : Int) (B : List Nat)
    (st : StoreState) (_hc : 0 < c) (hB : B ≠ []) (hu : keysUnique st) :
    Read blobID (Write blobID c B st) = Except.ok B :=
  Read_Write blobID c B st hB hu

/-- Witness for C1: a concrete three-byte blob with chunk size 2
round-trips. -/
theorem write_read_roundtrip_witness :
    Read "a" (Write "a" 2 [1, 2, 3] ([] : StoreState)) = Except.ok [1, 2, 3] :=
  write_read_roundtrip "a" 2 [1, 2, 3] [] (by decide) (by decide)
    List.Pairwise.nil

/-- Counterexample for C1 as stated: for the empty byte sequence the
round-trip fails; writing the empty stream persists nothing, so `Read`
fails with the not-found error instead of returning the empty
sequence. -/
theorem write_read_roundtrip_cx :
    Read "a" (Write "a" 1 [] ([] : StoreState)) =
      Except.error BlobError.ErrNotFound ∧
    Read "a" (Write "a" 1 [] ([] : StoreState)) ≠
      Except.ok ([] : List Nat) := by
  have hw : Write "a" 1 [] ([] : StoreState) = [] := by rw [Write_nil]; rfl
  rw [hw]
  exact ⟨rfl, fun h => Except.noConfusion h⟩

/-- C2 (amended): writing a nil/empty stream succeeds but persists no
segment at all: the first read attempt hits end-of-stream before any
segment is emitted, and the final truncation deletes every existing
segment of the blob (`seq >= 0`).  Afterwards the blob does not exist:
`Read` and `Size` fail with the not-found error. -/
theorem write_empty_truncates (blobID : String) (c : Int) (st : StoreState) :
    blobSegs blobID (Write blobID c [] st) = [] ∧
    Read blobID (Write blobID c [] st) = Except.error BlobError.ErrNotFound ∧
    Size blobID (Write blobID c [] st) = Except.error BlobError.ErrNotFound := by
  have h := blobSegs_Write_nil blobID c st
  exact ⟨h, (Read_notFound_iff _ _).mpr h, (Size_notFound_iff _ _).mpr h⟩

/-- Counterexample for C2 as stated: after writing an empty stream the
blob has zero segments, not one empty segment, and it is not readable
as a length-0 blob: `Size` fails not-found. -/
theorem write_empty_cx :
    (blobSegs "a" (Write "a" 2 [] ([] : StoreState))).length = 0 ∧
    Size "a" (Write "a" 2 [] ([] : StoreState)) =
      Except.error BlobError.ErrNotFound := by
  have h := blobSegs_Write_nil "a" 2 ([] : StoreState)
  exact ⟨by rw [h]; rfl, (Size_notFound_iff _ _).mpr h⟩

/-- C3 (amended to nonempty B2): overwriting any previous content B1
with a nonempty B2 leaves exactly B2's segments: reading back yields
B2, the size is B2's length, and every remaining segment of the blob
has `seq` below the number of segments emitted for B2 (the truncation
delete removed all higher sequence numbers). -/
theorem truncation_write_shorter (blobID : String) (c : Int) (B1 B2 : List Nat)
    (st : StoreState) (_hc : 0 < c) (hB2 : B2 ≠ []) (hu : keysUnique st) :
    Read blobID (Write blobID c B2 (Write blobID c B1 st)) = Except.ok B2 ∧
    Size blobID (Write blobID c B2 (Write blobID c B1 st)) =
      Except.ok B2.length ∧
    ∀ s ∈ Write blobID c B2 (Write blobID c B1 st), s.blobId = blobID →
      s.seq < (emitted blobID c B2).length := by
  have hu1 := Write_keysUnique blobID c B1 st hu
  refine ⟨Read_Write blobID c B2 _ hB2 hu1, Size_Write blobID c B2 _ hB2 hu1, ?_⟩
  intro s hs hsb
  have hmem : s ∈ blobSegs blobID (Write blobID c B2 (Write blobID c B1 st)) :=
    List.mem_filter.mpr ⟨hs, by simp [hsb]⟩
  have hsE : s ∈ emitted blobID c B2 :=
    (blobSegs_Write blobID c B2 (Write blobID c B1 st) hu1).mem_iff.mp hmem
  exact (emitted_mem blobID c B2 s hsE).2.1

/-- Witness for C3: writing two bytes then one byte leaves exactly the
one-byte blob. -/
theorem truncation_write_shorter_witness :
    Read "a" (Write "a" 1 [5] (Write "a" 1 [7, 8] ([] : StoreState))) =
      Except.ok [5] ∧
    Size "a" (Write "a" 1 [5] (Write "a" 1 [7, 8] ([] : StoreState))) =
      Except.ok 1 :=
  ⟨(truncation_write_shorter "a" 1 [7, 8] [5] [] (by decide) (by decide)
      List.Pairwise.nil).1,
   (truncation_write_shorter "a" 1 [7, 8] [5] [] (by decide) (by decide)
      List.Pairwise.nil).2.1⟩

/-- Counterexample for C3 as stated: with the empty sequence as the
shorter content, reading back after the second write does not yield the
written content; it fails with not-found. -/
theorem truncation_write_shorter_cx :
    Read "a" (Write "a" 1 [] (Write "a" 1 [7] ([] : StoreState))) =
      Except.error BlobError.ErrNotFound ∧
    Read "a" (Write "a" 1 [] (Write "a" 1 [7] ([] : StoreState))) ≠
      Except.ok ([] : List Nat) := by
  have h := (Read_notFound_iff "a"
    (Write "a" 1 [] (Write "a" 1 [7] ([] : StoreState)))).mpr
    (blobSegs_Write_nil "a" 1 _)
  exact ⟨h, by rw [h]; exact fun hh => Except.noConfusion hh⟩

/-- C4 (amended to nonempty streams): after writing a nonempty B,
`Size` returns B's length; it reads only the highest-`seq` segment and
returns its `start + n`. -/
theorem size_after_write (blobID : String) (c : Int) (B : List Nat)
    (st : StoreState) (_hc : 0 < c) (hB : B ≠ []) (hu : keysUnique st) :
    Size blobID (Write blobID c B st) = Except.ok B.length :=
  Size_Write blobID c B st hB hu

/-- Witness for C4: a five-byte blob written with chunk size 2 has size
5. -/
theorem size_after_write_witness :
    Size "a" (Write "a" 2 [1, 2, 3, 4, 5] ([] : StoreState)) = Except.ok 5 :=
  size_after_write "a" 2 [1, 2, 3, 4, 5] [] (by decide) (by decide)
    List.Pairwise.nil

/-- Counterexample for C4 as stated: after writing the empty sequence,
`Size` does not return 0; it fails with not-found because no segment
was persisted. -/
theorem size_after_write_cx :
    Size "a" (Write "a" 1 [] ([] : StoreState)) =
      Except.error BlobError.ErrNotFound ∧
    Size "a" (Write "a" 1 [] ([] : StoreState)) ≠ Except.ok 0 := by
  have h := (Size_notFound_iff "a" (Write "a" 1 [] ([] : StoreState))).mpr
    (blobSegs_Write_nil "a" 1 ([] : StoreState))
  exact ⟨h, by rw [h]; exact fun hh => Except.noConfusion hh⟩

end Blobstore

namespace Blobstore

/-- C5: with effective chunk size C, a stream of exactly k * C bytes is
persisted as exactly k segments each of payload length C, and a stream
of k * C + r bytes (0 < r < C) as k + 1 segments, the last of length r
and all others of length C.  The segment list is the blob's segments
ordered by `seq`. -/
theorem segment_boundary_exactness (blobID : String) (c : Int) (B : List Nat)
    (st : StoreState) (k r : Nat) (_hc : 0 < c) (_hk : 1 ≤ k)
    (hu : keysUnique st) :
    (B.length = k * effChunkSize c →
      (sortBySeq (blobSegs blobID (Write blobID c B st))).map
          (fun s => s.data.length) =
        List.replicate k (effChunkSize c)) ∧
    (B.length = k * effChunkSize c + r → 0 < r → r < effChunkSize c →
      (sortBySeq (blobSegs blobID (Write blobID c B st))).map
          (fun s => s.data.length) =
        List.replicate k (effChunkSize c) ++ [r]) := by
  have hC : effChunkSize c - 1 + 1 = effChunkSize c :=
    Nat.sub_add_cancel (effChunkSize_pos c)
  constructor
  · intro hB
    rw [sorted_blobSegs_Write blobID c B st hu, emitted_data_lengths]
    rw [chunks_lengths_exact (effChunkSize c - 1) k B (by rw [hC]; exact hB), hC]
  · intro hB hr0 hr1
    rw [sorted_blobSegs_Write blobID c B st hu, emitted_data_lengths]
    rw [chunks_lengths_rem (effChunkSize c - 1) k r B hr0
      (by rw [hC]; exact hr1) (by rw [hC]; exact hB), hC]

/-- Witness for C5: four bytes at chunk size 2 give two segments of
length 2. -/
theorem segment_boundary_exactness_witness :
    (sortBySeq (blobSegs "a" (Write "a" 2 [1, 2, 3, 4] ([] : StoreState)))).map
        (fun s => s.data.length) =
      List.replicate 2 (effChunkSize 2) :=
  (segment_boundary_exactness "a" 2 [1, 2, 3, 4] [] 2 0 (by decide) (by decide)
    List.Pairwise.nil).1 (by decide)

/-- C6: `Read` and `Size` fail with the named not-found error exactly
when no segments exist for the id: on an empty store, and after
`Remove` of a previously written id; the check is the first thing both
operations decide. -/
theorem notFound_exactly_when_no_segments (blobID : String) (st : StoreState) :
    (Read blobID st = Except.error BlobError.ErrNotFound ↔
      blobSegs blobID st = []) ∧
    (Size blobID st = Except.error BlobError.ErrNotFound ↔
      blobSegs blobID st = []) ∧
    Read blobID ([] : StoreState) = Except.error BlobError.ErrNotFound ∧
    Size blobID ([] : StoreState) = Except.error BlobError.ErrNotFound ∧
    (∀ (c : Int) (B : List Nat) (st0 : StoreState),
      Read blobID (Remove [blobID] (Write blobID c B st0)).1 =
        Except.error BlobError.ErrNotFound ∧
      Size blobID (Remove [blobID] (Write blobID c B st0)).1 =
        Except.error BlobError.ErrNotFound) := by
  refine ⟨Read_notFound_iff blobID st, Size_notFound_iff blobID st,
    (Read_notFound_iff blobID []).mpr rfl, (Size_notFound_iff blobID []).mpr rfl,
    ?_⟩
  intro c B st0
  have h : blobSegs blobID (Remove [blobID] (Write blobID c B st0)).1 = [] := by
    refine blobSegs_Remove_of_mem [blobID] blobID _ ?_
    simp
  exact ⟨(Read_notFound_iff _ _).mpr h, (Size_notFound_iff _ _).mpr h⟩

/-- C7: `Remove` leaves exactly the segments whose id is not among the
given ids (so removing an id with no segments succeeds as a no-op);
with zero ids it performs no store round trip and leaves the store
unchanged, and with at least one id it performs exactly one `DeleteMany`
round trip. -/
theorem remove_deletes_all (ids : List String) (st : StoreState) :
    (Remove ids st).1 = st.filter (fun t => !(ids.contains t.blobId)) ∧
    (Remove ([] : List String) st).1 = st ∧
    (Remove ([] : List String) st).2 = 0 ∧
    (∀ (i : String) (rest : List String), (Remove (i :: rest) st).2 = 1) := by
  refine ⟨?_, rfl, rfl, fun i rest => rfl⟩
  rcases ids with _ | ⟨i, rest⟩
  · rw [show (Remove ([] : List String) st).1 = st from rfl]
    exact (List.filter_eq_self.mpr fun a _ => by simp).symm
  · rfl

/-- C8: the store operations preserve the per-blob contiguity
invariant; after any completed write every blob's segments, in `seq`
order, start at offset 0 and are contiguous (`start[i+1] = start[i] +
n[i]`, `n = payload length`), and the unique-key invariant is
preserved as well. -/
theorem invariant_preserved (op : Op) (st : StoreState) (hu : keysUnique st)
    (hinv : ∀ blobID, blobInvariant blobID st) :
    keysUnique (applyOp op st) ∧
    ∀ blobID, blobInvariant blobID (applyOp op st) := by
  cases op with
  | write id c B =>
    refine ⟨Write_keysUnique id c B st hu, ?_⟩
    intro bid
    by_cases hb : bid = id
    · subst hb
      exact blobInvariant_Write_self bid c B st hu
    · exact blobInvariant_Write_other id bid c B st hu hb (hinv bid)
  | remove ids =>
    exact ⟨Remove_keysUnique ids st hu,
      fun bid => blobInvariant_Remove ids bid st (hinv bid)⟩

/-- Witness for C8: a concrete write into the empty store yields a
store satisfying the contiguity invariant for the written blob. -/
theorem invariant_preserved_witness :
    keysUnique (applyOp (Op.write "a" 2 [1, 2, 3]) []) ∧
    blobInvariant "a" (applyOp (Op.write "a" 2 [1, 2, 3]) []) := by
  have h := invariant_preserved (Op.write "a" 2 [1, 2, 3]) []
    List.Pairwise.nil (fun _ => rfl)
  exact ⟨h.1, h.2 "a"⟩

/-- C9: the index creation guarded by `sync.Once` is issued against the
backing store at most once per store handle: iterating `EnsureIndex` n
times from a fresh handle issues `CreateOne` exactly `min n 1` times,
and once the guard has fired every further invocation is a no-op. -/
theorem ensureIndex_at_most_once :
    (∀ n : Nat, (EnsureIndex^[n] indexState0).creates = min n 1) ∧
    (∀ s : IndexState, EnsureIndex (EnsureIndex s) = EnsureIndex s) := by
  constructor
  · intro n
    cases n with
    | zero => rfl
    | succ k =>
      rw [Function.iterate_succ_apply, EnsureIndex_step0, EnsureIndex_fixed k]
      show 1 = min (k + 1) 1
      omega
  · intro s
    unfold EnsureIndex
    rcases h : s.done with _ | _ <;> simp [h]

/-- C10: every segment `Write` emits has a payload of length between 1
and the effective chunk size with `n` equal to the payload length, and
consequently every persisted segment of the written blob has `1 ≤ n ≤
chunk size` — `Write` never persists an `n = 0` segment, whatever the
input stream. -/
theorem write_segment_bounds (blobID : String) (c : Int) (B : List Nat)
    (st : StoreState) (hu : keysUnique st) :
    (∀ s ∈ emitted blobID c B,
      1 ≤ s.data.length ∧ s.data.length ≤ effChunkSize c ∧
        s.n = s.data.length) ∧
    (∀ s ∈ blobSegs blobID (Write blobID c B st),
      1 ≤ s.n ∧ s.n ≤ effChunkSize c) := by
  have hbound : ∀ s ∈ emitted blobID c B,
      1 ≤ s.data.length ∧ s.data.length ≤ effChunkSize c ∧
        s.n = s.data.length := by
    intro s hs
    obtain ⟨h1, h2, h3, h4⟩ := emitted_mem blobID c B s hs
    obtain ⟨hne, hle⟩ := chunks_mem (effChunkSize c - 1) B s.data h4
    refine ⟨List.length_pos.mpr hne, ?_, h3⟩
    have hC := effChunkSize_pos c
    omega
  refine ⟨hbound, ?_⟩
  intro s hs
  have hsE : s ∈ emitted blobID c B :=
    (blobSegs_Write blobID c B st hu).mem_iff.mp hs
  obtain ⟨h1, h2, h3⟩ := hbound s hsE
  omega

/-- Witness for C10: the single segment emitted for a one-byte blob has
payload length 1 within bounds and `n` equal to it. -/
theorem write_segment_bounds_witness :
    1 ≤ (blobSegment.mk "a" 0 [5] 0 1).data.length ∧
    (blobSegment.mk "a" 0 [5] 0 1).data.length ≤ effChunkSize 2 ∧
    (blobSegment.mk "a" 0 [5] 0 1).n =
      (blobSegment.mk "a" 0 [5] 0 1).data.length :=
  (write_segment_bounds "a" 2 [5] [] List.Pairwise.nil).1
    ⟨"a", 0, [5], 0, 1⟩ (by simp [emitted, effChunkSize, chunks, annotate])

end Blobstore
